import Mathlib

/-!
Verification of `repo_to_pdf.py`, a utility that walks a repository tree,
selects text files by fixed allow/deny lists, reads each file with an
encoding-fallback strategy, and renders a paginated PDF "story" consisting
of a title block, a table of contents, and one section per file.

The Python program is shallowly embedded below:
  * Python strings are `List Char`; Python byte strings are `List Nat`
    (each element intended `< 256`).
  * `pathlib.Path` values are `PyPath`: the list of path segments relative
    to the fixed repository root `/home/user/CodeUpgradeEngine`.
  * `os`-level enumeration (`Path.rglob`) is a list of `(path, is_file)`
    pairs handed to the selector.
  * The reportlab "story" is a list of `Flowable`s; styles are kept as
    their style-sheet names.
  * Exceptions are embedded with `Except`.
-/

namespace RepoToPdf

/-! ## Python string primitives -/

/-- Python string comparison `a < b`: lexicographic on code points. -/
def strLt : List Char → List Char → Bool
  | [], [] => false
  | [], _ :: _ => true
  | _ :: _, [] => false
  | a :: as, b :: bs =>
    if a.toNat < b.toNat then true
    else if b.toNat < a.toNat then false
    else strLt as bs

/-- `str.lower` on one character (ASCII range, which covers every constant
the program compares and the repository's file names). -/
def lowerChar (c : Char) : Char :=
  if 'A' ≤ c ∧ c ≤ 'Z' then Char.ofNat (c.toNat + 32) else c

/-- `str.lower` on a whole string. -/
def toLowerCl (s : List Char) : List Char := s.map lowerChar

/-- Python `str.replace(c, r)` for a one-character pattern `c`:
replace every occurrence of `c` by `r`, scanning left to right,
never rescanning the replacement text. -/
def replaceChar (c : Char) (r : List Char) : List Char → List Char
  | [] => []
  | x :: xs => if x = c then r ++ replaceChar c r xs else x :: replaceChar c r xs

/-- Decimal digits of a positive number, most significant first. -/
def natDigits : Nat → List Char
  | 0 => []
  | n + 1 =>
    natDigits ((n + 1) / 10) ++ [Char.ofNat (48 + (n + 1) % 10)]
decreasing_by exact Nat.div_lt_self (Nat.succ_pos n) (by decide)

/-- Python `str(n)` for a natural number (as produced by f-strings). -/
def natStr (n : Nat) : List Char := if n = 0 then ['0'] else natDigits n

/-- Universal-newline translation performed by Python text-mode reads:
`\r\n` and lone `\r` both become `\n`. -/
def translateNewlines : List Char → List Char
  | [] => []
  | '\r' :: '\n' :: rest => '\n' :: translateNewlines rest
  | '\r' :: rest => '\n' :: translateNewlines rest
  | c :: rest => c :: translateNewlines rest

/-! ## Path model -/

/-- A filesystem path under the repository root, as its list of path
segments relative to `REPO_ROOT = /home/user/CodeUpgradeEngine`. -/
structure PyPath where
  segments : List (List Char)
deriving DecidableEq

/-- `str(REPO_ROOT)`. -/
def rootStrCl : List Char := "/home/user/CodeUpgradeEngine".toList

/-- `REPO_ROOT.parts` as Python computes it for the absolute root. -/
def rootParts : List (List Char) :=
  ["/".toList, "home".toList, "user".toList, "CodeUpgradeEngine".toList]

/-- `Path.parts` of an enumerated absolute path: the root's parts followed
by the relative segments. -/
def pyParts (p : PyPath) : List (List Char) := rootParts ++ p.segments

/-- `Path.name`: the final path segment (empty for the bare root). -/
def pyName (p : PyPath) : List Char := (p.segments.getLast?).getD []

/-- `str(path.relative_to(REPO_ROOT))`: segments joined with `/`. -/
def relStr (p : PyPath) : List Char :=
  (List.intersperse "/".toList p.segments).flatten

/-- `str(path)` for the absolute path. -/
def pathStr (p : PyPath) : List Char :=
  rootStrCl ++ (p.segments.map (fun s => '/' :: s)).flatten

/-- `PurePath.suffix`'s search for the last dot in a file name. -/
def lastDotIdx : List Char → Option Nat
  | [] => none
  | c :: cs =>
    match lastDotIdx cs with
    | some i => some (i + 1)
    | none => if c = '.' then some (0 : Nat) else none

/-- `PurePath.suffix` of a file name: the part from the last dot on,
provided that dot is neither the first nor the last character
(CPython: `0 < i < len(name) - 1`). -/
def pySuffix (name : List Char) : List Char :=
  match lastDotIdx name with
  | none => []
  | some i => if 0 < i ∧ i + 1 < name.length then name.drop i else []

/-! ## Fixed configuration (module-level constants of the script) -/

/-- `EXCLUDE_DIRS`: directory names to skip. -/
def EXCLUDE_DIRS : List (List Char) :=
  ["node_modules".toList, ".git".toList, "dist".toList, "build".toList,
   "__pycache__".toList, ".next".toList, ".cache".toList, "coverage".toList,
   ".nyc_output".toList, "venv".toList, ".venv".toList]

/-- `INCLUDE_EXTENSIONS`: file extensions to include. -/
def INCLUDE_EXTENSIONS : List (List Char) :=
  [".py".toList, ".js".toList, ".ts".toList, ".tsx".toList, ".jsx".toList,
   ".json".toList, ".md".toList, ".txt".toList, ".html".toList, ".css".toList,
   ".scss".toList, ".yaml".toList, ".yml".toList, ".sh".toList, ".sql".toList,
   ".xml".toList, ".toml".toList, ".cfg".toList, ".ini".toList, ".go".toList,
   ".rs".toList, ".java".toList, ".c".toList, ".cpp".toList, ".h".toList,
   ".hpp".toList, ".env".toList, ".gitignore".toList, ".lock".toList,
   ".cs".toList, ".xaml".toList, ".csproj".toList, ".addin".toList,
   ".sln".toList, ".resx".toList]

/-- `INCLUDE_FILES`: file names to include even without a matching extension. -/
def INCLUDE_FILES : List (List Char) :=
  ["Dockerfile".toList, "Makefile".toList, "Procfile".toList, ".env".toList,
   ".env.example".toList, ".gitignore".toList, ".dockerignore".toList,
   ".prettierrc".toList, ".eslintrc".toList, ".replit".toList]

/-! ## Selector -/

/-- `should_include_file`: reject any path with an excluded segment, accept
exact allow-listed names, otherwise test the lowercased suffix against the
extension allow-list. -/
def should_include_file (p : PyPath) : Bool :=
  if (pyParts p).any (fun part => decide (part ∈ EXCLUDE_DIRS)) then false
  else if pyName p ∈ INCLUDE_FILES then true
  else decide (toLowerCl (pySuffix (pyName p)) ∈ INCLUDE_EXTENSIONS)

/-- The body of `get_all_files`'s loop: a path enumerated by `rglob` is kept
when it is a file, passes `should_include_file`, and is none of the
script's hard-coded self-exclusions. -/
def keepFile (p : PyPath) (isFile : Bool) : Bool :=
  isFile && should_include_file p &&
    !(decide (pyName p = "repo_to_pdf.py".toList) ||
      decide (pySuffix (pyName p) = ".pdf".toList)) &&
    !(decide (pyName p = "package-lock.json".toList))

/-- `files.sort(key=lambda x: str(x).lower())`'s key function. -/
def sortKey (p : PyPath) : List Char := toLowerCl (pathStr p)

/-- Strict comparison of two paths by sort key. -/
def pathLt (a b : PyPath) : Bool := strLt (sortKey a) (sortKey b)

/-- Stable insertion used to model Python's stable `list.sort`:
`x` is placed before the first element not strictly below it, so elements
with equal keys keep their original relative order. -/
def insortBy (lt : α → α → Bool) (x : α) : List α → List α
  | [] => [x]
  | y :: ys => if lt y x then y :: insortBy lt x ys else x :: y :: ys

/-- Stable sort (model of Python `list.sort` with a key). -/
def sortBy (lt : α → α → Bool) : List α → List α
  | [] => []
  | x :: xs => insortBy lt x (sortBy lt xs)

/-- `get_all_files`: filter the `rglob` enumeration (given here as
`(path, is_file)` pairs in traversal order), then sort by the lowercased
absolute path string. -/
def get_all_files (enum : List (PyPath × Bool)) : List PyPath :=
  sortBy pathLt ((enum.filter (fun e => keepFile e.1 e.2)).map Prod.fst)

/-! ## Reader: codecs and `read_file_safely` -/

/-- The three encodings tried, in order, by `read_file_safely`. -/
inductive Encoding where
  | utf8
  | latin1
  | cp1252
deriving DecidableEq

/-- Is `b` a UTF-8 continuation byte (`0x80..0xBF`)? -/
def contOk (b : Nat) : Bool := 0x80 ≤ b && b ≤ 0xBF

/-- Valid range of the second byte of a three-byte UTF-8 sequence,
depending on the lead byte (excludes overlong forms and surrogates,
as CPython's strict UTF-8 codec does). -/
def secondOk3 (b b1 : Nat) : Bool :=
  if b = 0xE0 then 0xA0 ≤ b1 && b1 ≤ 0xBF
  else if b = 0xED then 0x80 ≤ b1 && b1 ≤ 0x9F
  else contOk b1

/-- Valid range of the second byte of a four-byte UTF-8 sequence,
depending on the lead byte (excludes overlong forms and code points
beyond `U+10FFFF`). -/
def secondOk4 (b b1 : Nat) : Bool :=
  if b = 0xF0 then 0x90 ≤ b1 && b1 ≤ 0xBF
  else if b = 0xF4 then 0x80 ≤ b1 && b1 ≤ 0x8F
  else contOk b1

/-- Strict UTF-8 decoding (`bytes.decode('utf-8')`): `none` models
`UnicodeDecodeError`. -/
def decodeUtf8 : List Nat → Option (List Char)
  | [] => some []
  | b :: bs =>
    if b ≤ 0x7F then
      (decodeUtf8 bs).map (fun cs => Char.ofNat b :: cs)
    else if 0xC2 ≤ b ∧ b ≤ 0xDF then
      match bs with
      | b1 :: rest =>
        if contOk b1 then
          (decodeUtf8 rest).map
            (fun cs => Char.ofNat ((b - 0xC0) * 64 + (b1 - 0x80)) :: cs)
        else none
      | [] => none
    else if 0xE0 ≤ b ∧ b ≤ 0xEF then
      match bs with
      | b1 :: b2 :: rest =>
        if secondOk3 b b1 && contOk b2 then
          (decodeUtf8 rest).map
            (fun cs =>
              Char.ofNat ((b - 0xE0) * 4096 + (b1 - 0x80) * 64 + (b2 - 0x80)) :: cs)
        else none
      | _ => none
    else if 0xF0 ≤ b ∧ b ≤ 0xF4 then
      match bs with
      | b1 :: b2 :: b3 :: rest =>
        if secondOk4 b b1 && contOk b2 && contOk b3 then
          (decodeUtf8 rest).map
            (fun cs =>
              Char.ofNat ((b - 0xF0) * 262144 + (b1 - 0x80) * 4096 +
                (b2 - 0x80) * 64 + (b3 - 0x80)) :: cs)
        else none
      | _ => none
    else none

/-- `bytes.decode('latin-1')`: every byte maps directly to the code point
of the same value, so this decoder is total. -/
def decodeLatin1 (bs : List Nat) : List Char := bs.map Char.ofNat

/-- The cp1252 byte-to-code-point table; `none` on the five bytes
(`0x81, 0x8D, 0x8F, 0x90, 0x9D`) that are undefined in cp1252. -/
def cp1252Map (b : Nat) : Option Nat :=
  if b ≤ 0x7F then some b
  else if 0xA0 ≤ b then some b
  else
    match b with
    | 0x80 => some 0x20AC
    | 0x82 => some 0x201A
    | 0x83 => some 0x0192
    | 0x84 => some 0x201E
    | 0x85 => some 0x2026
    | 0x86 => some 0x2020
    | 0x87 => some 0x2021
    | 0x88 => some 0x02C6
    | 0x89 => some 0x2030
    | 0x8A => some 0x0160
    | 0x8B => some 0x2039
    | 0x8C => some 0x0152
    | 0x8E => some 0x017D
    | 0x91 => some 0x2018
    | 0x92 => some 0x2019
    | 0x93 => some 0x201C
    | 0x94 => some 0x201D
    | 0x95 => some 0x2022
    | 0x96 => some 0x2013
    | 0x97 => some 0x2014
    | 0x98 => some 0x02DC
    | 0x99 => some 0x2122
    | 0x9A => some 0x0161
    | 0x9B => some 0x203A
    | 0x9C => some 0x0153
    | 0x9E => some 0x017E
    | 0x9F => some 0x0178
    | _ => none

/-- `bytes.decode('cp1252')`. -/
def decodeCp1252 (bs : List Nat) : Option (List Char) :=
  bs.mapM (fun b => (cp1252Map b).map Char.ofNat)

/-- `bytes.decode('utf-8', errors='replace')`: on an error, the maximal
valid prefix of a sequence is replaced by one `U+FFFD` and decoding
resumes at the next byte (CPython's maximal-subpart substitution). -/
def decodeUtf8Replace : List Nat → List Char
  | [] => []
  | b :: bs =>
    if b ≤ 0x7F then Char.ofNat b :: decodeUtf8Replace bs
    else if 0xC2 ≤ b ∧ b ≤ 0xDF then
      match bs with
      | b1 :: rest =>
        if contOk b1 then
          Char.ofNat ((b - 0xC0) * 64 + (b1 - 0x80)) :: decodeUtf8Replace rest
        else '�' :: decodeUtf8Replace (b1 :: rest)
      | [] => ['�']
    else if 0xE0 ≤ b ∧ b ≤ 0xEF then
      match bs with
      | b1 :: rest =>
        if secondOk3 b b1 then
          match rest with
          | b2 :: rest2 =>
            if contOk b2 then
              Char.ofNat ((b - 0xE0) * 4096 + (b1 - 0x80) * 64 + (b2 - 0x80)) ::
                decodeUtf8Replace rest2
            else '�' :: decodeUtf8Replace (b2 :: rest2)
          | [] => ['�']
        else '�' :: decodeUtf8Replace (b1 :: rest)
      | [] => ['�']
    else if 0xF0 ≤ b ∧ b ≤ 0xF4 then
      match bs with
      | b1 :: rest =>
        if secondOk4 b b1 then
          match rest with
          | b2 :: rest2 =>
            if contOk b2 then
              match rest2 with
              | b3 :: rest3 =>
                if contOk b3 then
                  Char.ofNat ((b - 0xF0) * 262144 + (b1 - 0x80) * 4096 +
                    (b2 - 0x80) * 64 + (b3 - 0x80)) :: decodeUtf8Replace rest3
                else '�' :: decodeUtf8Replace (b3 :: rest3)
              | [] => ['�']
            else '�' :: decodeUtf8Replace (b2 :: rest2)
          | [] => ['�']
        else '�' :: decodeUtf8Replace (b1 :: rest)
      | [] => ['�']
    else '�' :: decodeUtf8Replace bs

/-- Strict decoding under one named encoding. -/
def tryDecode : Encoding → List Nat → Option (List Char)
  | Encoding.utf8, bs => decodeUtf8 bs
  | Encoding.latin1, bs => some (decodeLatin1 bs)
  | Encoding.cp1252, bs => decodeCp1252 bs

/-- One iteration of `read_file_safely`'s loop:
`open(filepath, 'r', encoding=e)` followed by `f.read()` — a strict decode
plus universal-newline translation; `none` models the caught
`UnicodeDecodeError`. -/
def readAttempt (e : Encoding) (bs : List Nat) : Option (List Char) :=
  (tryDecode e bs).map translateNewlines

/-- The `encodings = ['utf-8', 'latin-1', 'cp1252']` list. -/
def pythonEncodings : List Encoding :=
  [Encoding.utf8, Encoding.latin1, Encoding.cp1252]

/-- The `for encoding in encodings` loop: return the first attempt that
does not raise. -/
def tryEncodings : List Encoding → List Nat → Option (List Char)
  | [], _ => none
  | e :: rest, bs =>
    match readAttempt e bs with
    | some s => some s
    | none => tryEncodings rest bs

/-- `read_file_safely`, as a function of the file's bytes: the encoding
loop, then the binary re-read decoded with `errors='replace'`. -/
def read_file_safely (bs : List Nat) : List Char :=
  match tryEncodings pythonEncodings bs with
  | some s => s
  | none => decodeUtf8Replace bs

/-! ## `escape_xml` -/

/-- `escape_xml`: replace `&` first, then `<`, then `>`. -/
def escape_xml (text : List Char) : List Char :=
  replaceChar '>' "&gt;".toList
    (replaceChar '<' "&lt;".toList
      (replaceChar '&' "&amp;".toList text))

/-! ## Renderer: flowables, story, console, and the two `main` embeddings -/

/-- A reportlab flowable appended to `story`, keeping the text and the
name of the paragraph style; geometry-only arguments of `Spacer` are
abstracted away. -/
inductive Flowable where
  | spacer : Flowable
  | paragraph (text : List Char) (style : List Char) : Flowable
  | preformatted (text : List Char) (style : List Char) : Flowable
  | pageBreak : Flowable
deriving DecidableEq

/-- Pair each list element with its 1-based (in general, `start`-based)
position: the model of Python `enumerate(files, 1)`. -/
def enum1 (start : Nat) : List α → List (Nat × α)
  | [] => []
  | x :: xs => (start, x) :: enum1 (start + 1) xs

/-- `f"{i}. {relative_path}"`. -/
def tocEntryStr (i : Nat) (p : PyPath) : List Char :=
  natStr i ++ ". ".toList ++ relStr p

/-- The TOC flowables: one `Paragraph(escape_xml(toc_entry), toc_style)`
per selected file, in `enumerate(files, 1)` order. -/
def tocFls (files : List PyPath) : List Flowable :=
  (enum1 1 files).map
    (fun ip => Flowable.paragraph (escape_xml (tocEntryStr ip.1 ip.2)) "TOC".toList)

/-- `f"File: {relative_path}"`. -/
def headerStr (p : PyPath) : List Char := "File: ".toList ++ relStr p

/-- The content transformation applied before `Preformatted`: escape, then
replace each tab by four spaces. -/
def bodyText (content : List Char) : List Char :=
  replaceChar '\t' "    ".toList (escape_xml content)

/-- The three flowables appended for one file: escaped header paragraph,
preformatted escaped/tab-expanded content, page break. -/
def sectionFor (p : PyPath) (content : List Char) : List Flowable :=
  [Flowable.paragraph (escape_xml (headerStr p)) "FileHeader".toList,
   Flowable.preformatted (bodyText content) "Code".toList,
   Flowable.pageBreak]

/-- All per-file sections, in selection order. -/
def sectionsOf (pairs : List (PyPath × List Char)) : List Flowable :=
  (pairs.map (fun pc => sectionFor pc.1 pc.2)).flatten

/-- The title page and the TOC heading, exactly as `main` appends them
before the TOC entries. -/
def titleBlock (count : Nat) : List Flowable :=
  [Flowable.spacer,
   Flowable.paragraph "CodeUpgradeEngine".toList "CustomTitle".toList,
   Flowable.paragraph "Complete Repository Source Code".toList "CustomSubtitle".toList,
   Flowable.paragraph ("Total Files: ".toList ++ natStr count) "CustomSubtitle".toList,
   Flowable.pageBreak,
   Flowable.paragraph "Table of Contents".toList "Heading1".toList,
   Flowable.spacer]

/-- The complete `story` list built by `main`. -/
def storyOf (files : List PyPath) (pairs : List (PyPath × List Char)) :
    List Flowable :=
  titleBlock files.length ++ tocFls files ++ [Flowable.pageBreak] ++ sectionsOf pairs

/-- The fixed output artifact `REPO_ROOT / "CodeUpgradeEngine_Repository.pdf"`. -/
def outputPdfPath : PyPath := ⟨["CodeUpgradeEngine_Repository.pdf".toList]⟩

/-- Everything `main` prints to standard output, in order. -/
def consoleOf (files : List PyPath) : List (List Char) :=
  "Collecting files from repository...".toList ::
    ("Found ".toList ++ natStr files.length ++ " files to include".toList) ::
    ((enum1 1 files).map
      (fun ip => "Processing (".toList ++ natStr ip.1 ++ "/".toList ++
        natStr files.length ++ "): ".toList ++ relStr ip.2)) ++
    ["Building PDF...".toList,
     "\nPDF created successfully: ".toList ++ pathStr outputPdfPath]

/-- The observable result of a completed run. -/
structure RunOutput where
  console : List (List Char)
  story : List Flowable
  outPath : PyPath
deriving DecidableEq

/-- Assemble the run result from the selected files and their contents. -/
def runOutputOf (files : List PyPath) (pairs : List (PyPath × List Char)) :
    RunOutput :=
  { console := consoleOf files
    story := storyOf files pairs
    outPath := outputPdfPath }

/-- `main` with every filesystem interaction successful, as a pure function
of the `rglob` enumeration and of each file's text content. -/
def mainPure (enum : List (PyPath × Bool)) (contentOf : PyPath → List Char) :
    RunOutput :=
  runOutputOf (get_all_files enum)
    ((get_all_files enum).map (fun p => (p, contentOf p)))

/-- Effectful map over `Except`: the first error aborts the whole
traversal, exactly like an uncaught exception in `main`'s file loop. -/
def mapE (f : α → Except ε β) : List α → Except ε (List β)
  | [] => Except.ok []
  | x :: xs =>
    match f x with
    | Except.error e => Except.error e
    | Except.ok b =>
      match mapE f xs with
      | Except.error e => Except.error e
      | Except.ok bs => Except.ok (b :: bs)

/-- `main` with failure modeled explicitly: `enumE` is the outcome of the
`rglob` traversal, `readBytes` the outcome of opening/reading each file at
the OS level (decoding errors are already absorbed inside
`read_file_safely`), and `writeRes` the outcome of `doc.build`.
Any error propagates immediately; there is no retry and no partial
output. -/
def mainE (enumE : Except ε (List (PyPath × Bool)))
    (readBytes : PyPath → Except ε (List Nat))
    (writeRes : Except ε Unit) : Except ε RunOutput :=
  match enumE with
  | Except.error e => Except.error e
  | Except.ok enum =>
    match mapE (fun p => (readBytes p).map read_file_safely) (get_all_files enum) with
    | Except.error e => Except.error e
    | Except.ok texts =>
      match writeRes with
      | Except.error e => Except.error e
      | Except.ok _ =>
        Except.ok (runOutputOf (get_all_files enum)
          ((get_all_files enum).zip texts))

/-- Does a flowable carry a file's content section body? -/
def isPreformatted : Flowable → Bool
  | Flowable.preformatted _ _ => true
  | _ => false

/-- Number of per-file content bodies in a story. -/
def sectionCount (story : List Flowable) : Nat := story.countP isPreformatted

/-! ## Order lemmas for `strLt` -/

theorem strLt_irrefl (a : List Char) : strLt a a = false := by
  induction a with
  | nil => rfl
  | cons c cs ih => simp [strLt, ih]

theorem strLt_trans {a b c : List Char} (h1 : strLt a b = true)
    (h2 : strLt b c = true) : strLt a c = true := by
  induction a generalizing b c with
  | nil =>
    cases b with
    | nil => simp [strLt] at h1
    | cons y ys =>
      cases c with
      | nil => simp [strLt] at h2
      | cons z zs => simp [strLt]
  | cons x xs ih =>
    cases b with
    | nil => simp [strLt] at h1
    | cons y ys =>
      cases c with
      | nil => simp [strLt] at h2
      | cons z zs =>
        simp only [strLt] at h1 h2 ⊢
        rcases Nat.lt_trichotomy x.toNat y.toNat with hxy | hxy | hxy
        · rcases Nat.lt_trichotomy y.toNat z.toNat with hyz | hyz | hyz
          · simp [Nat.lt_trans hxy hyz]
          · simp [hyz ▸ hxy]
          · simp [Nat.lt_asymm hyz, hyz] at h2
        · rcases Nat.lt_trichotomy y.toNat z.toNat with hyz | hyz | hyz
          · simp [hxy ▸ hyz]
          · have hxz : x.toNat = z.toNat := hxy.trans hyz
            simp [hxy, Nat.lt_irrefl] at h1
            simp [hyz, Nat.lt_irrefl] at h2
            simp [hxz, Nat.lt_irrefl]
            exact ih h1 h2
          · simp [Nat.lt_asymm hyz, hyz] at h2
        · simp [Nat.lt_asymm hxy, hxy] at h1

theorem strLt_conn {a b : List Char} (h1 : strLt a b = false)
    (h2 : strLt b a = false) : a = b := by
  induction a generalizing b with
  | nil =>
    cases b with
    | nil => rfl
    | cons y ys => simp [strLt] at h1
  | cons x xs ih =>
    cases b with
    | nil => simp [strLt] at h2
    | cons y ys =>
      simp only [strLt] at h1 h2
      rcases Nat.lt_trichotomy x.toNat y.toNat with hxy | hxy | hxy
      · simp [hxy] at h1
      · have hchar : x = y := by
          have := congrArg Char.ofNat hxy
          rwa [Char.ofNat_toNat, Char.ofNat_toNat] at this
        simp [hxy, Nat.lt_irrefl] at h1 h2
        rw [hchar, ih h1 h2]
      · simp [hxy, Nat.lt_asymm hxy] at h2

theorem strLt_asymm {a b : List Char} (h : strLt a b = true) :
    strLt b a = false := by
  by_contra hc
  have hba : strLt b a = true := by
    cases hv : strLt b a with
    | true => rfl
    | false => exact absurd hv hc
  have := strLt_trans h hba
  rw [strLt_irrefl] at this
  exact Bool.false_ne_true this

theorem strLt_negTrans {a b c : List Char} (h1 : strLt b a = false)
    (h2 : strLt c b = false) : strLt c a = false := by
  cases hca : strLt c a with
  | false => rfl
  | true =>
    exfalso
    cases hab : strLt a b with
    | true =>
      have := strLt_trans hca hab
      rw [h2] at this
      exact Bool.false_ne_true this
    | false =>
      have hEq : a = b := strLt_conn hab h1
      rw [hEq, h2] at hca
      exact Bool.false_ne_true hca

theorem strLt_append (p a b : List Char) :
    strLt (p ++ a) (p ++ b) = strLt a b := by
  induction p with
  | nil => rfl
  | cons c cs ih => simp [strLt, ih, Nat.lt_irrefl]

/-! ## Stable-sort lemmas -/

theorem mem_insortBy {lt : α → α → Bool} {x a : α} :
    ∀ {l : List α}, a ∈ insortBy lt x l ↔ a = x ∨ a ∈ l := by
  intro l
  induction l with
  | nil => simp [insortBy]
  | cons y ys ih =>
    by_cases h : lt y x = true
    · simp only [insortBy, h, if_true, List.mem_cons, ih]
      tauto
    · simp only [insortBy, h, if_false, Bool.false_eq_true, List.mem_cons]

theorem mem_sortBy {lt : α → α → Bool} {a : α} :
    ∀ {l : List α}, a ∈ sortBy lt l ↔ a ∈ l := by
  intro l
  induction l with
  | nil => simp [sortBy]
  | cons x xs ih => simp [sortBy, mem_insortBy, ih]

theorem pairwise_insortBy {lt : α → α → Bool}
    (hasymm : ∀ a b, lt a b = true → lt b a = false)
    (hneg : ∀ a b c, lt b a = false → lt c b = false → lt c a = false)
    (x : α) :
    ∀ {l : List α}, l.Pairwise (fun a b => lt b a = false) →
      (insortBy lt x l).Pairwise (fun a b => lt b a = false) := by
  intro l h
  induction l with
  | nil => simp [insortBy]
  | cons y ys ih =>
    rcases List.pairwise_cons.mp h with ⟨hy, hys⟩
    by_cases hlt : lt y x = true
    · simp only [insortBy, hlt, if_true]
      refine List.pairwise_cons.mpr ⟨?_, ih hys⟩
      intro z hz
      rcases mem_insortBy.mp hz with rfl | hz'
      · exact hasymm y z hlt
      · exact hy z hz'
    · have hlt' : lt y x = false := by
        cases hv : lt y x with
        | true => exact absurd hv hlt
        | false => rfl
      simp only [insortBy, hlt', if_false, Bool.false_eq_true]
      refine List.pairwise_cons.mpr ⟨?_, h⟩
      intro z hz
      rcases List.mem_cons.mp hz with rfl | hz'
      · exact hlt'
      · exact hneg x y z hlt' (hy z hz')

theorem pairwise_sortBy {lt : α → α → Bool}
    (hasymm : ∀ a b, lt a b = true → lt b a = false)
    (hneg : ∀ a b c, lt b a = false → lt c b = false → lt c a = false) :
    ∀ (l : List α), (sortBy lt l).Pairwise (fun a b => lt b a = false) := by
  intro l
  induction l with
  | nil => simp [sortBy]
  | cons x xs ih => exact pairwise_insortBy hasymm hneg x ih

theorem pathLt_asymm (a b : PyPath) (h : pathLt a b = true) :
    pathLt b a = false := strLt_asymm h

theorem pathLt_negTrans (a b c : PyPath) (h1 : pathLt b a = false)
    (h2 : pathLt c b = false) : pathLt c a = false := strLt_negTrans h1 h2

/-- The selected file list is pairwise sorted by the lowercased absolute
path string. -/
theorem get_all_files_pairwise (enum : List (PyPath × Bool)) :
    (get_all_files enum).Pairwise (fun a b => pathLt b a = false) :=
  pairwise_sortBy (fun a b => pathLt_asymm a b)
    (fun a b c => pathLt_negTrans a b c) _

/-- Sorted output, index form: a later element is never strictly below an
earlier one. -/
theorem get_all_files_sorted_get (enum : List (PyPath × Bool))
    {i j : Nat} (hi : i < (get_all_files enum).length)
    (hj : j < (get_all_files enum).length) (hij : i < j) :
    pathLt ((get_all_files enum).get ⟨j, hj⟩)
      ((get_all_files enum).get ⟨i, hi⟩) = false := by
  have h := List.pairwise_iff_get.mp (get_all_files_pairwise enum)
  exact h ⟨i, hi⟩ ⟨j, hj⟩ hij

/-- A strict key comparison between positions forces the strictly smaller
key to sit at the earlier position. -/
theorem get_all_files_lt_position (enum : List (PyPath × Bool))
    {i j : Nat} (hi : i < (get_all_files enum).length)
    (hj : j < (get_all_files enum).length)
    (h : pathLt ((get_all_files enum).get ⟨i, hi⟩)
      ((get_all_files enum).get ⟨j, hj⟩) = true) : i < j := by
  rcases Nat.lt_trichotomy i j with hij | hij | hij
  · exact hij
  · subst hij
    exfalso
    unfold pathLt at h
    rw [strLt_irrefl] at h
    exact Bool.false_ne_true h
  · have := get_all_files_sorted_get enum hj hi hij
    rw [this] at h
    exact absurd h Bool.false_ne_true

/-! ## Absolute vs relative path strings -/

theorem mapSlash_flatten (s : List Char) (l : List (List Char)) :
    ((s :: l).map (fun x => '/' :: x)).flatten =
      '/' :: (List.intersperse "/".toList (s :: l)).flatten := by
  induction l generalizing s with
  | nil => simp
  | cons t ts ih =>
    calc ((s :: t :: ts).map (fun x => '/' :: x)).flatten
        = '/' :: (s ++ ((t :: ts).map (fun x => '/' :: x)).flatten) := by
          simp
      _ = '/' :: (s ++ '/' :: (List.intersperse "/".toList (t :: ts)).flatten) := by
          rw [ih t]
      _ = '/' :: (List.intersperse "/".toList (s :: t :: ts)).flatten := by
          rw [List.intersperse_cons_cons]
          simp

theorem lowerChar_slash : lowerChar '/' = '/' := by decide

/-- For a path with at least one segment, the lowercased sort key is the
lowercased root followed by a slash and the lowercased relative string. -/
theorem sortKey_decomp (p : PyPath) (s : List Char) (l : List (List Char))
    (h : p.segments = s :: l) :
    sortKey p = toLowerCl rootStrCl ++ '/' :: toLowerCl (relStr p) := by
  unfold sortKey pathStr relStr toLowerCl
  rw [h, mapSlash_flatten]
  simp [lowerChar_slash]

/-- Between paths that both have segments, comparing lowercased absolute
path strings is the same as comparing lowercased relative path strings. -/
theorem pathLt_eq_relLt (a b : PyPath) (ha : a.segments ≠ [])
    (hb : b.segments ≠ []) :
    pathLt a b = strLt (toLowerCl (relStr a)) (toLowerCl (relStr b)) := by
  obtain ⟨sa, la, hsa⟩ : ∃ s l, a.segments = s :: l := by
    cases h : a.segments with
    | nil => exact absurd h ha
    | cons s l => exact ⟨s, l, rfl⟩
  obtain ⟨sb, lb, hsb⟩ : ∃ s l, b.segments = s :: l := by
    cases h : b.segments with
    | nil => exact absurd h hb
    | cons s l => exact ⟨s, l, rfl⟩
  unfold pathLt
  rw [sortKey_decomp a sa la hsa, sortKey_decomp b sb lb hsb]
  have hassoc : ∀ x : List Char,
      toLowerCl rootStrCl ++ '/' :: x = (toLowerCl rootStrCl ++ ['/']) ++ x := by
    intro x
    rw [List.append_assoc]
    rfl
  rw [hassoc (toLowerCl (relStr a)), hassoc (toLowerCl (relStr b)), strLt_append]

/-! ## `replaceChar` and `escape_xml` lemmas -/

theorem replaceChar_of_not_mem {c : Char} {r s : List Char} (h : c ∉ s) :
    replaceChar c r s = s := by
  induction s with
  | nil => rfl
  | cons x xs ih =>
    have hx : x ≠ c := fun hcx => h (hcx ▸ List.mem_cons_self x xs)
    have hxs : c ∉ xs := fun hm => h (List.mem_cons_of_mem x hm)
    simp [replaceChar, hx, ih hxs]

theorem not_mem_replaceChar {c d : Char} {r s : List Char} (hs : c ∉ s)
    (hr : c ∉ r) : c ∉ replaceChar d r s := by
  induction s with
  | nil => simp [replaceChar]
  | cons x xs ih =>
    have hx : c ≠ x := fun hcx => hs (hcx ▸ List.mem_cons_self x xs)
    have hxs : c ∉ xs := fun hm => hs (List.mem_cons_of_mem x hm)
    by_cases hxd : x = d
    · simp only [replaceChar, hxd, if_true, List.mem_append]
      rintro (hm | hm)
      · exact hr hm
      · exact ih hxs hm
    · simp only [replaceChar, hxd, if_false, List.mem_cons]
      rintro (hm | hm)
      · exact hx hm
      · exact ih hxs hm

theorem not_mem_replaceChar_self {c : Char} {r s : List Char} (hr : c ∉ r) :
    c ∉ replaceChar c r s := by
  induction s with
  | nil => simp [replaceChar]
  | cons x xs ih =>
    by_cases hx : x = c
    · simp only [replaceChar, hx, if_true, List.mem_append]
      rintro (hm | hm)
      · exact hr hm
      · exact ih hm
    · simp only [replaceChar, hx, if_false, List.mem_cons]
      rintro (hm | hm)
      · exact hx hm.symm
      · exact ih hm

theorem escape_id_of_clean {s : List Char} (h1 : '&' ∉ s) (h2 : '<' ∉ s)
    (h3 : '>' ∉ s) : escape_xml s = s := by
  unfold escape_xml
  rw [replaceChar_of_not_mem h1, replaceChar_of_not_mem h2,
    replaceChar_of_not_mem h3]

theorem lt_not_mem_escape (s : List Char) : '<' ∉ escape_xml s := by
  unfold escape_xml
  apply not_mem_replaceChar
  · exact not_mem_replaceChar_self (by decide)
  · decide

theorem gt_not_mem_escape (s : List Char) : '>' ∉ escape_xml s := by
  unfold escape_xml
  exact not_mem_replaceChar_self (by decide)

theorem lt_not_mem_bodyText (s : List Char) : '<' ∉ bodyText s := by
  unfold bodyText
  exact not_mem_replaceChar (lt_not_mem_escape s) (by decide)

theorem gt_not_mem_bodyText (s : List Char) : '>' ∉ bodyText s := by
  unfold bodyText
  exact not_mem_replaceChar (gt_not_mem_escape s) (by decide)

/-! ## `enum1` lemmas -/

theorem enum1_length (start : Nat) (l : List α) :
    (enum1 start l).length = l.length := by
  induction l generalizing start with
  | nil => rfl
  | cons x xs ih => simp [enum1, ih]

theorem enum1_get (start : Nat) (l : List α) (k : Nat)
    (hk : k < (enum1 start l).length) (hk' : k < l.length) :
    (enum1 start l).get ⟨k, hk⟩ = (start + k, l.get ⟨k, hk'⟩) := by
  induction l generalizing start k with
  | nil => exact absurd hk' (Nat.not_lt_zero k)
  | cons x xs ih =>
    cases k with
    | zero => simp [enum1]
    | succ n =>
      have hn : n < (enum1 (start + 1) xs).length := by
        simpa [enum1] using hk
      have hn' : n < xs.length := by simpa using hk'
      simp only [enum1, List.get_cons_succ]
      rw [ih (start + 1) n hn hn']
      simp [Nat.add_assoc, Nat.add_comm 1 n]

/-! ## `mapE` lemmas -/

theorem mapE_ok_length {f : α → Except ε β} :
    ∀ {l : List α} {bs : List β}, mapE f l = Except.ok bs →
      bs.length = l.length := by
  intro l
  induction l with
  | nil =>
    intro bs h
    simp only [mapE] at h
    cases h
    rfl
  | cons x xs ih =>
    intro bs h
    simp only [mapE] at h
    cases hfx : f x with
    | error e => rw [hfx] at h; cases h
    | ok b =>
      rw [hfx] at h
      cases hrec : mapE f xs with
      | error e => rw [hrec] at h; cases h
      | ok bs' =>
        rw [hrec] at h
        cases h
        simp [ih hrec]

theorem mapE_ok_forall {f : α → Except ε β} :
    ∀ {l : List α} {bs : List β}, mapE f l = Except.ok bs →
      ∀ a ∈ l, ∃ b, f a = Except.ok b := by
  intro l
  induction l with
  | nil => intro bs _ a ha; cases ha
  | cons x xs ih =>
    intro bs h a ha
    simp only [mapE] at h
    cases hfx : f x with
    | error e => rw [hfx] at h; cases h
    | ok b =>
      rw [hfx] at h
      cases hrec : mapE f xs with
      | error e => rw [hrec] at h; cases h
      | ok bs' =>
        rcases List.mem_cons.mp ha with rfl | ha'
        · exact ⟨b, hfx⟩
        · exact ih hrec a ha'

theorem mapE_ok_of_forall {f : α → Except ε β} :
    ∀ {l : List α}, (∀ a ∈ l, ∃ b, f a = Except.ok b) →
      ∃ bs, mapE f l = Except.ok bs := by
  intro l
  induction l with
  | nil => intro _; exact ⟨[], rfl⟩
  | cons x xs ih =>
    intro h
    rcases h x (List.mem_cons_self x xs) with ⟨b, hb⟩
    rcases ih (fun a ha => h a (List.mem_cons_of_mem x ha)) with ⟨bs, hbs⟩
    exact ⟨b :: bs, by simp [mapE, hb, hbs]⟩

/-- The first failing element, in list order, determines `mapE`'s error. -/
theorem mapE_error_first (f : α → Except ε β) :
    ∀ {l : List α} {k : Nat} (hk : k < l.length) {e : ε},
      f (l.get ⟨k, hk⟩) = Except.error e →
      (∀ j (hj : j < l.length), j < k → ∃ b, f (l.get ⟨j, hj⟩) = Except.ok b) →
      mapE f l = Except.error e := by
  intro l
  induction l with
  | nil => intro k hk; exact absurd hk (Nat.not_lt_zero k)
  | cons x xs ih =>
    intro k hk e herr hprev
    cases k with
    | zero =>
      simp only [List.get] at herr
      simp [mapE, herr]
    | succ n =>
      have hx : ∃ b, f x = Except.ok b := by
        have := hprev 0 (Nat.succ_pos _) (Nat.succ_pos n)
        simpa using this
      rcases hx with ⟨b, hb⟩
      have hn : n < xs.length := Nat.lt_of_succ_lt_succ hk
      have herr' : f (xs.get ⟨n, hn⟩) = Except.error e := by
        simpa using herr
      have hprev' : ∀ j (hj : j < xs.length), j < n →
          ∃ b, f (xs.get ⟨j, hj⟩) = Except.ok b := by
        intro j hj hjn
        have := hprev (j + 1) (Nat.succ_lt_succ hj) (Nat.succ_lt_succ hjn)
        simpa using this
      have hrec := ih hn herr' hprev'
      simp [mapE, hb, hrec]

/-! ## `sectionCount` lemmas -/

theorem sectionCount_tocFls (files : List PyPath) :
    sectionCount (tocFls files) = 0 := by
  unfold sectionCount tocFls
  induction enum1 1 files with
  | nil => rfl
  | cons ip ips ih => simp [List.countP_cons, isPreformatted, ih]

theorem sectionCount_sectionsOf (pairs : List (PyPath × List Char)) :
    sectionCount (sectionsOf pairs) = pairs.length := by
  unfold sectionCount sectionsOf
  induction pairs with
  | nil => rfl
  | cons pc pcs ih =>
    simp only [List.map_cons, List.flatten_cons, List.countP_append]
    rw [ih]
    simp [sectionFor, List.countP_cons, isPreformatted]
    omega

theorem sectionCount_storyOf (files : List PyPath)
    (pairs : List (PyPath × List Char)) :
    sectionCount (storyOf files pairs) = pairs.length := by
  unfold storyOf
  unfold sectionCount at *
  simp only [List.countP_append]
  rw [show (titleBlock files.length).countP isPreformatted = 0 from by
    simp [titleBlock, List.countP_cons, isPreformatted, List.countP_nil]]
  rw [show (tocFls files).countP isPreformatted = 0 from sectionCount_tocFls files]
  rw [show ([Flowable.pageBreak].countP isPreformatted) = 0 from by
    simp [List.countP_cons, isPreformatted, List.countP_nil]]
  rw [show (sectionsOf pairs).countP isPreformatted = pairs.length from
    sectionCount_sectionsOf pairs]
  omega

/-! ## Selector characterization -/

theorem keepFile_iff (p : PyPath) (b : Bool) :
    keepFile p b = true ↔
      (b = true ∧ should_include_file p = true ∧
       pyName p ≠ "repo_to_pdf.py".toList ∧
       pySuffix (pyName p) ≠ ".pdf".toList ∧
       pyName p ≠ "package-lock.json".toList) := by
  unfold keepFile
  cases b <;> simp [and_assoc]

theorem should_include_iff (p : PyPath) :
    should_include_file p = true ↔
      ((∀ seg ∈ p.segments, seg ∉ EXCLUDE_DIRS) ∧
       (pyName p ∈ INCLUDE_FILES ∨
         toLowerCl (pySuffix (pyName p)) ∈ INCLUDE_EXTENSIONS)) := by
  unfold should_include_file
  have hroot : rootParts.any (fun part => decide (part ∈ EXCLUDE_DIRS)) = false := by
    decide
  unfold pyParts
  by_cases hseg : ∀ seg ∈ p.segments, seg ∉ EXCLUDE_DIRS
  · have hany : p.segments.any (fun part => decide (part ∈ EXCLUDE_DIRS)) = false := by
      simp only [List.any_eq_false, decide_eq_true_eq]
      exact hseg
    simp only [List.any_append, hroot, hany, Bool.or_self, Bool.false_eq_true,
      if_false]
    by_cases hname : pyName p ∈ INCLUDE_FILES
    · rw [if_pos hname]
      exact iff_of_true rfl ⟨hseg, Or.inl hname⟩
    · rw [if_neg hname]
      simp only [decide_eq_true_eq]
      constructor
      · intro h
        exact ⟨hseg, Or.inr h⟩
      · rintro ⟨-, hor⟩
        rcases hor with h | h
        · exact absurd h hname
        · exact h
  · have hany : p.segments.any (fun part => decide (part ∈ EXCLUDE_DIRS)) = true := by
      push_neg at hseg
      rcases hseg with ⟨seg, hm, hmem⟩
      simp only [List.any_eq_true, decide_eq_true_eq]
      exact ⟨seg, hm, hmem⟩
    simp only [List.any_append, hroot, hany, Bool.false_or, if_true]
    constructor
    · intro h
      exact absurd h Bool.false_ne_true
    · rintro ⟨hall, -⟩
      push_neg at hseg
      rcases hseg with ⟨seg, hm, hmem⟩
      exact absurd hmem (hall seg hm)

theorem mem_get_all_files_iff (enum : List (PyPath × Bool)) (p : PyPath) :
    p ∈ get_all_files enum ↔ ∃ b, (p, b) ∈ enum ∧ keepFile p b = true := by
  unfold get_all_files
  rw [mem_sortBy]
  simp only [List.mem_map, List.mem_filter]
  constructor
  · rintro ⟨e, ⟨he, hk⟩, rfl⟩
    exact ⟨e.2, by simpa using he, hk⟩
  · rintro ⟨b, hm, hk⟩
    exact ⟨(p, b), ⟨hm, hk⟩, rfl⟩

/-- C1: a file path is selected by `get_all_files` iff it is an enumerated
file, no segment of its path equals an excluded directory name, its name is
in the exact allow-list or its case-insensitive extension is in the
extension allow-list, and it is none of the self-exclusions
(`repo_to_pdf.py`, a `.pdf` suffix, `package-lock.json`).  The
characterization depends only on the path, never on file content. -/
theorem selection_iff (enum : List (PyPath × Bool)) (p : PyPath) :
    p ∈ get_all_files enum ↔
      ((p, true) ∈ enum ∧
       (∀ seg ∈ p.segments, seg ∉ EXCLUDE_DIRS) ∧
       (pyName p ∈ INCLUDE_FILES ∨
         toLowerCl (pySuffix (pyName p)) ∈ INCLUDE_EXTENSIONS) ∧
       pyName p ≠ "repo_to_pdf.py".toList ∧
       pySuffix (pyName p) ≠ ".pdf".toList ∧
       pyName p ≠ "package-lock.json".toList) := by
  rw [mem_get_all_files_iff]
  constructor
  · rintro ⟨b, hm, hk⟩
    rcases (keepFile_iff p b).mp hk with ⟨rfl, hinc, h1, h2, h3⟩
    rcases (should_include_iff p).mp hinc with ⟨hseg, hallow⟩
    exact ⟨hm, hseg, hallow, h1, h2, h3⟩
  · rintro ⟨hm, hseg, hallow, h1, h2, h3⟩
    refine ⟨true, hm, (keepFile_iff p true).mpr ⟨rfl, ?_, h1, h2, h3⟩⟩
    exact (should_include_iff p).mpr ⟨hseg, hallow⟩

/-! ## Reader claims -/

/-- The Reader as the specification words it: attempt utf-8, then latin-1,
then cp1252, returning the first attempt that decodes without error, and
fall back to the lossy replacement decode of the raw bytes when all three
fail.  Stated independently of the loop in `read_file_safely` so the two
can be compared. -/
def readerClaimSpec (bs : List Nat) : List Char :=
  match readAttempt Encoding.utf8 bs with
  | some s => s
  | none =>
    match readAttempt Encoding.latin1 bs with
    | some s => s
    | none =>
      match readAttempt Encoding.cp1252 bs with
      | some s => s
      | none => decodeUtf8Replace bs

/-- C3: `read_file_safely` tries utf-8, latin-1, cp1252 in that order,
returns the result of the first encoding that decodes without error, and
on total failure returns the lossy replacement decode of the raw bytes —
it is a total function and never propagates a decoding error. -/
theorem read_file_safely_first_success (bs : List Nat) :
    read_file_safely bs = readerClaimSpec bs := by
  unfold read_file_safely readerClaimSpec pythonEncodings
  simp only [tryEncodings]
  cases hu : readAttempt Encoding.utf8 bs with
  | some s => simp [hu]
  | none =>
    cases hl : readAttempt Encoding.latin1 bs with
    | some s => simp [hu, hl]
    | none =>
      cases hc : readAttempt Encoding.cp1252 bs with
      | some s => simp [hu, hl, hc]
      | none => simp [hu, hl, hc]

/-- C10: decoding any byte sequence with latin-1 succeeds, so the encoding
loop of `read_file_safely` always produces its result and the lossy
re-read fallback branch is unreachable. -/
theorem latin1_total_fallback_unreachable (bs : List Nat) :
    readAttempt Encoding.latin1 bs =
      some (translateNewlines (decodeLatin1 bs)) ∧
    ∃ s, tryEncodings pythonEncodings bs = some s ∧ read_file_safely bs = s := by
  constructor
  · rfl
  · unfold read_file_safely pythonEncodings
    simp only [tryEncodings]
    cases hu : readAttempt Encoding.utf8 bs with
    | some s => exact ⟨s, by simp [hu], by simp [hu]⟩
    | none =>
      refine ⟨translateNewlines (decodeLatin1 bs), ?_, ?_⟩ <;>
        simp [hu, readAttempt, tryDecode]

/-! ## Escaping round-trip -/

/-- C4: the only rewrites applied to file content before rendering are the
three entity replacements of `escape_xml` and tab expansion; on a string
containing none of the characters `&`, `<`, `>`, `escape_xml` is the
identity and the rendered body is the original content with each tab
replaced by four spaces. -/
theorem escape_roundtrip (s : List Char)
    (h : '&' ∉ s ∧ '<' ∉ s ∧ '>' ∉ s) :
    escape_xml s = s ∧ bodyText s = replaceChar '\t' "    ".toList s := by
  rcases h with ⟨h1, h2, h3⟩
  have he : escape_xml s = s := escape_id_of_clean h1 h2 h3
  refine ⟨he, ?_⟩
  unfold bodyText
  rw [he]

theorem escape_roundtrip_witness :
    ('&' ∉ "print(1)\n".toList ∧ '<' ∉ "print(1)\n".toList ∧
      '>' ∉ "print(1)\n".toList) ∧
    escape_xml "print(1)\n".toList = "print(1)\n".toList ∧
    bodyText "print(1)\n".toList =
      replaceChar '\t' "    ".toList "print(1)\n".toList :=
  ⟨by decide, escape_roundtrip "print(1)\n".toList (by decide)⟩

/-! ## Determinism -/

/-- C7: the document structure is a function of the directory tree and the
file contents alone — two runs over the same enumeration whose selected
files read identically produce exactly the same output (console, story,
output path). -/
theorem run_deterministic (enum : List (PyPath × Bool))
    (c1 c2 : PyPath → List Char)
    (h : ∀ p ∈ get_all_files enum, c1 p = c2 p) :
    mainPure enum c1 = mainPure enum c2 := by
  unfold mainPure
  have hmap : (get_all_files enum).map (fun p => (p, c1 p)) =
      (get_all_files enum).map (fun p => (p, c2 p)) :=
    List.map_congr_left (fun p hp => by rw [h p hp])
  rw [hmap]

theorem run_deterministic_witness :
    mainPure [(⟨["a.py".toList]⟩, true)] (fun _ => "x".toList) =
      mainPure [(⟨["a.py".toList]⟩, true)] (fun _ => "x".toList) :=
  run_deterministic _ _ _ (fun _ _ => rfl)

/-! ## Empty root -/

/-- C9: when no file is selected, the run still assembles the document —
the story is exactly the title block (reporting zero files) followed by
the TOC page break, there are zero TOC entries and zero content sections,
the console reports that 0 files were found, and the effectful run
completes successfully. -/
theorem empty_root_output (enum : List (PyPath × Bool))
    (c : PyPath → List Char) (h : get_all_files enum = []) :
    (mainPure enum c).story = titleBlock 0 ++ [Flowable.pageBreak] ∧
    tocFls (get_all_files enum) = [] ∧
    sectionCount (mainPure enum c).story = 0 ∧
    "Found 0 files to include".toList ∈ (mainPure enum c).console ∧
    (∀ (ε : Type) (readBytes : PyPath → Except ε (List Nat)),
      mainE (Except.ok enum) readBytes (Except.ok ()) =
        Except.ok (runOutputOf [] [])) := by
  refine ⟨?_, ?_, ?_, ?_, ?_⟩
  · unfold mainPure runOutputOf storyOf
    rw [h]
    simp [tocFls, enum1, sectionsOf]
  · rw [h]
    rfl
  · unfold mainPure runOutputOf
    rw [h]
    rw [show ([] : List PyPath).map (fun p => (p, c p)) = [] from rfl]
    rw [sectionCount_storyOf]
    rfl
  · unfold mainPure runOutputOf consoleOf
    rw [h]
    exact List.mem_cons_of_mem _ (List.mem_cons_self _ _)
  · intro ε readBytes
    simp only [mainE]
    rw [h]
    simp [mapE]

theorem empty_root_output_witness :
    get_all_files [] = [] ∧
    (mainPure [] (fun _ => [])).story = titleBlock 0 ++ [Flowable.pageBreak] ∧
    "Found 0 files to include".toList ∈ (mainPure [] (fun _ => [])).console := by
  have h := empty_root_output [] (fun _ => []) rfl
  exact ⟨rfl, h.1, h.2.2.2.1⟩

/-! ## Table of contents structure -/

theorem special_not_mem_natDigits (n : Nat) :
    '&' ∉ natDigits n ∧ '<' ∉ natDigits n ∧ '>' ∉ natDigits n := by
  induction n using Nat.strong_induction_on with
  | _ n ih =>
    cases n with
    | zero => simp [natDigits]
    | succ m =>
      rw [natDigits]
      have hrec := ih ((m + 1) / 10) (Nat.div_lt_self (Nat.succ_pos m) (by decide))
      have hd0 : (m + 1) % 10 < 10 := Nat.mod_lt _ (by decide)
      set d := (m + 1) % 10 with hd
      refine ⟨?_, ?_, ?_⟩ <;> simp only [List.mem_append, not_or] <;>
        refine ⟨by tauto, ?_⟩ <;> interval_cases d <;> decide

theorem special_not_mem_natStr (n : Nat) :
    '&' ∉ natStr n ∧ '<' ∉ natStr n ∧ '>' ∉ natStr n := by
  unfold natStr
  by_cases hz : n = 0
  · simp [hz]
  · rw [if_neg hz]
    exact special_not_mem_natDigits n

theorem special_not_mem_tocEntryStr {p : PyPath} (k : Nat)
    (h1 : '&' ∉ relStr p) (h2 : '<' ∉ relStr p) (h3 : '>' ∉ relStr p) :
    '&' ∉ tocEntryStr k p ∧ '<' ∉ tocEntryStr k p ∧ '>' ∉ tocEntryStr k p := by
  have hn := special_not_mem_natStr k
  unfold tocEntryStr
  refine ⟨?_, ?_, ?_⟩ <;> simp only [List.mem_append, not_or] <;>
    exact ⟨⟨by tauto, by decide⟩, by assumption⟩

theorem tocFls_length (files : List PyPath) :
    (tocFls files).length = files.length := by
  unfold tocFls
  rw [List.length_map, enum1_length]

theorem tocFls_get (files : List PyPath) (k : Nat)
    (hk : k < files.length) (hk' : k < (tocFls files).length) :
    (tocFls files).get ⟨k, hk'⟩ =
      Flowable.paragraph
        (escape_xml (tocEntryStr (k + 1) (files.get ⟨k, hk⟩))) "TOC".toList := by
  have hk2 : k < (enum1 1 files).length := by
    rw [enum1_length]
    exact hk
  unfold tocFls
  rw [List.get_eq_getElem, List.getElem_map]
  rw [show (enum1 1 files)[k] = (enum1 1 files).get ⟨k, hk2⟩ from rfl]
  rw [enum1_get 1 files k hk2 hk]
  rw [Nat.add_comm 1 k]

/-- C8: the table of contents lists every selected file exactly once,
1-indexed, in canonical (selection) order, entry `k` being the paragraph
built from the string `"<index>. <relative path>"` (markup-escaped when
placed); when the relative path contains no markup characters the placed
text is literally that string. -/
theorem toc_structure (enum : List (PyPath × Bool)) (c : PyPath → List Char) :
    (mainPure enum c).story =
      titleBlock (get_all_files enum).length ++ tocFls (get_all_files enum) ++
        [Flowable.pageBreak] ++
        sectionsOf ((get_all_files enum).map (fun p => (p, c p))) ∧
    (tocFls (get_all_files enum)).length = (get_all_files enum).length ∧
    (∀ k (hk : k < (get_all_files enum).length)
       (hk' : k < (tocFls (get_all_files enum)).length),
       (tocFls (get_all_files enum)).get ⟨k, hk'⟩ =
         Flowable.paragraph
           (escape_xml (tocEntryStr (k + 1) ((get_all_files enum).get ⟨k, hk⟩)))
           "TOC".toList ∧
       tocEntryStr (k + 1) ((get_all_files enum).get ⟨k, hk⟩) =
         natStr (k + 1) ++ ". ".toList ++ relStr ((get_all_files enum).get ⟨k, hk⟩) ∧
       ('&' ∉ relStr ((get_all_files enum).get ⟨k, hk⟩) →
        '<' ∉ relStr ((get_all_files enum).get ⟨k, hk⟩) →
        '>' ∉ relStr ((get_all_files enum).get ⟨k, hk⟩) →
        escape_xml (tocEntryStr (k + 1) ((get_all_files enum).get ⟨k, hk⟩)) =
          tocEntryStr (k + 1) ((get_all_files enum).get ⟨k, hk⟩))) := by
  refine ⟨rfl, tocFls_length _, ?_⟩
  intro k hk hk'
  refine ⟨tocFls_get _ k hk hk', rfl, ?_⟩
  intro h1 h2 h3
  rcases special_not_mem_tocEntryStr (k + 1) h1 h2 h3 with ⟨hamp, hlt2, hgt2⟩
  exact escape_id_of_clean hamp hlt2 hgt2

/-- A small concrete enumeration used by witnesses: `b.md` and `a.py` at
the root, listed out of canonical order. -/
def wEnum : List (PyPath × Bool) :=
  [(⟨["b.md".toList]⟩, true), (⟨["a.py".toList]⟩, true)]

theorem toc_structure_witness :
    (tocFls (get_all_files wEnum)).length = (get_all_files wEnum).length ∧
    (tocFls (get_all_files wEnum)).get ⟨0, by decide⟩ =
      Flowable.paragraph
        (escape_xml (tocEntryStr 1 ((get_all_files wEnum).get ⟨0, by decide⟩)))
        "TOC".toList ∧
    escape_xml (tocEntryStr 1 ((get_all_files wEnum).get ⟨0, by decide⟩)) =
      tocEntryStr 1 ((get_all_files wEnum).get ⟨0, by decide⟩) := by
  have h := toc_structure wEnum (fun _ => [])
  exact ⟨h.2.1, (h.2.2 0 (by decide) (by decide)).1,
    (h.2.2 0 (by decide) (by decide)).2.2 (by decide) (by decide) (by decide)⟩

/-! ## Escaping of every placed text -/

theorem story_mainPure (enum : List (PyPath × Bool)) (c : PyPath → List Char) :
    (mainPure enum c).story =
      storyOf (get_all_files enum)
        ((get_all_files enum).map (fun p => (p, c p))) := rfl

theorem mem_storyOf {files : List PyPath} {pairs : List (PyPath × List Char)}
    {fl : Flowable} :
    fl ∈ storyOf files pairs ↔
      fl ∈ titleBlock files.length ∨ fl ∈ tocFls files ∨
      fl = Flowable.pageBreak ∨ fl ∈ sectionsOf pairs := by
  unfold storyOf
  simp [List.mem_append, or_assoc]

/-- C5: every TOC entry, every file-header line, and every content body
placed into the story is the image of `escape_xml` (content bodies
additionally tab-expanded), so none of them contains a raw `<` or `>`;
and the escaped TOC entry and the escaped header/body of every selected
file are indeed placed, in every run. -/
theorem placed_texts_escaped (enum : List (PyPath × Bool))
    (c : PyPath → List Char) :
    (∀ t, Flowable.paragraph t "TOC".toList ∈ (mainPure enum c).story →
       (∃ r, t = escape_xml r) ∧ '<' ∉ t ∧ '>' ∉ t) ∧
    (∀ t, Flowable.paragraph t "FileHeader".toList ∈ (mainPure enum c).story →
       (∃ r, t = escape_xml r) ∧ '<' ∉ t ∧ '>' ∉ t) ∧
    (∀ t st, Flowable.preformatted t st ∈ (mainPure enum c).story →
       (∃ r, t = bodyText r) ∧ '<' ∉ t ∧ '>' ∉ t) ∧
    (∀ k (hk : k < (get_all_files enum).length),
       Flowable.paragraph
         (escape_xml (tocEntryStr (k + 1) ((get_all_files enum).get ⟨k, hk⟩)))
         "TOC".toList ∈ (mainPure enum c).story) ∧
    (∀ p ∈ get_all_files enum,
       Flowable.paragraph (escape_xml (headerStr p)) "FileHeader".toList ∈
         (mainPure enum c).story ∧
       Flowable.preformatted (bodyText (c p)) "Code".toList ∈
         (mainPure enum c).story) := by
  refine ⟨?_, ?_, ?_, ?_, ?_⟩
  · intro t hmem
    rw [story_mainPure] at hmem
    rcases mem_storyOf.mp hmem with h | h | h | h
    · exfalso
      simp only [titleBlock, List.mem_cons, List.not_mem_nil, or_false] at h
      rcases h with h | h | h | h | h | h | h <;>
        first
          | exact Flowable.noConfusion h
          | (injection h with h1 h2
             exact absurd h2 (by decide))
    · unfold tocFls at h
      rcases List.mem_map.mp h with ⟨ip, _, heq⟩
      injection heq with h1 h2
      refine ⟨⟨tocEntryStr ip.1 ip.2, h1.symm⟩, ?_, ?_⟩
      · rw [← h1]
        exact lt_not_mem_escape _
      · rw [← h1]
        exact gt_not_mem_escape _
    · exact Flowable.noConfusion h
    · exfalso
      unfold sectionsOf at h
      rcases List.mem_flatten.mp h with ⟨l, hl, hfl⟩
      rcases List.mem_map.mp hl with ⟨pc, _, rfl⟩
      simp only [sectionFor, List.mem_cons, List.not_mem_nil, or_false] at hfl
      rcases hfl with h | h | h <;>
        first
          | exact Flowable.noConfusion h
          | (injection h with h1 h2
             exact absurd h2 (by decide))
  · intro t hmem
    rw [story_mainPure] at hmem
    rcases mem_storyOf.mp hmem with h | h | h | h
    · exfalso
      simp only [titleBlock, List.mem_cons, List.not_mem_nil, or_false] at h
      rcases h with h | h | h | h | h | h | h <;>
        first
          | exact Flowable.noConfusion h
          | (injection h with h1 h2
             exact absurd h2 (by decide))
    · exfalso
      unfold tocFls at h
      rcases List.mem_map.mp h with ⟨ip, _, heq⟩
      injection heq with h1 h2
      exact absurd h2 (by decide)
    · exact Flowable.noConfusion h
    · unfold sectionsOf at h
      rcases List.mem_flatten.mp h with ⟨l, hl, hfl⟩
      rcases List.mem_map.mp hl with ⟨pc, _, rfl⟩
      simp only [sectionFor, List.mem_cons, List.not_mem_nil, or_false] at hfl
      rcases hfl with h | h | h
      · injection h with h1 h2
        refine ⟨⟨headerStr pc.1, h1⟩, ?_, ?_⟩
        · rw [h1]
          exact lt_not_mem_escape _
        · rw [h1]
          exact gt_not_mem_escape _
      · exact Flowable.noConfusion h
      · exact Flowable.noConfusion h
  · intro t st hmem
    rw [story_mainPure] at hmem
    rcases mem_storyOf.mp hmem with h | h | h | h
    · exfalso
      simp only [titleBlock, List.mem_cons, List.not_mem_nil, or_false] at h
      rcases h with h | h | h | h | h | h | h <;> exact Flowable.noConfusion h
    · exfalso
      unfold tocFls at h
      rcases List.mem_map.mp h with ⟨ip, _, heq⟩
      exact Flowable.noConfusion heq
    · exact Flowable.noConfusion h
    · unfold sectionsOf at h
      rcases List.mem_flatten.mp h with ⟨l, hl, hfl⟩
      rcases List.mem_map.mp hl with ⟨pc, _, rfl⟩
      simp only [sectionFor, List.mem_cons, List.not_mem_nil, or_false] at hfl
      rcases hfl with h | h | h
      · exact Flowable.noConfusion h
      · injection h with h1 h2
        refine ⟨⟨pc.2, h1⟩, ?_, ?_⟩
        · rw [h1]
          exact lt_not_mem_bodyText _
        · rw [h1]
          exact gt_not_mem_bodyText _
      · exact Flowable.noConfusion h
  · intro k hk
    have hk' : k < (tocFls (get_all_files enum)).length := by
      rw [tocFls_length]
      exact hk
    have hmem : (tocFls (get_all_files enum)).get ⟨k, hk'⟩ ∈
        tocFls (get_all_files enum) := List.get_mem _ _ _
    rw [tocFls_get _ k hk hk'] at hmem
    rw [story_mainPure]
    exact mem_storyOf.mpr (Or.inr (Or.inl hmem))
  · intro p hp
    have hpair : (p, c p) ∈ (get_all_files enum).map (fun q => (q, c q)) :=
      List.mem_map_of_mem (fun q => (q, c q)) hp
    have hsec := List.mem_map_of_mem
      (fun pc : PyPath × List Char => sectionFor pc.1 pc.2) hpair
    constructor
    · rw [story_mainPure]
      refine mem_storyOf.mpr (Or.inr (Or.inr (Or.inr ?_)))
      exact List.mem_flatten.mpr ⟨_, hsec, by simp [sectionFor]⟩
    · rw [story_mainPure]
      refine mem_storyOf.mpr (Or.inr (Or.inr (Or.inr ?_)))
      exact List.mem_flatten.mpr ⟨_, hsec, by simp [sectionFor]⟩

theorem placed_texts_escaped_witness :
    Flowable.paragraph
      (escape_xml (tocEntryStr 1 ((get_all_files wEnum).get ⟨0, by decide⟩)))
      "TOC".toList ∈ (mainPure wEnum (fun _ => "x<y".toList)).story ∧
    Flowable.preformatted (bodyText "x<y".toList) "Code".toList ∈
      (mainPure wEnum (fun _ => "x<y".toList)).story := by
  have h := placed_texts_escaped wEnum (fun _ => "x<y".toList)
  refine ⟨h.2.2.2.1 0 (by decide), ?_⟩
  have hp : (⟨["a.py".toList]⟩ : PyPath) ∈ get_all_files wEnum := by decide
  exact (h.2.2.2.2 ⟨["a.py".toList]⟩ hp).2

/-! ## Canonical ordering -/

/-- C2 counterexample: on a tree containing the two distinct files `X.py`
and `x.py`, the selector emits `X.py` strictly before `x.py` (stable sort
preserves traversal order on equal keys), yet
`lowercase("X.py") < lowercase("x.py")` is false — so "A precedes B iff
lowercase(A) < lowercase(B)" fails at A = `X.py`, B = `x.py`. -/
theorem canonical_order_counterexample :
    get_all_files [(⟨["X.py".toList]⟩, true), (⟨["x.py".toList]⟩, true)] =
      [⟨["X.py".toList]⟩, ⟨["x.py".toList]⟩] ∧
    (⟨["X.py".toList]⟩ : PyPath) ≠ ⟨["x.py".toList]⟩ ∧
    strLt (toLowerCl (relStr ⟨["X.py".toList]⟩))
      (toLowerCl (relStr ⟨["x.py".toList]⟩)) = false := by
  decide

/-- C2 (amended): the lowercase comparison of full relative path strings
determines the order of selected files up to ties — strictly smaller
lowercased paths come strictly earlier, an earlier position never carries
a strictly larger lowercased path (ties between distinct paths with equal
lowercase forms keep traversal order) — and TOC entries and content
sections enumerate the very same list in the very same order, so the two
orders are identical in every run. -/
theorem canonical_order_amended (enum : List (PyPath × Bool))
    (c : PyPath → List Char)
    (hwf : ∀ e ∈ enum, (e : PyPath × Bool).1.segments ≠ []) :
    (∀ i j (hi : i < (get_all_files enum).length)
       (hj : j < (get_all_files enum).length),
       strLt (toLowerCl (relStr ((get_all_files enum).get ⟨i, hi⟩)))
         (toLowerCl (relStr ((get_all_files enum).get ⟨j, hj⟩))) = true →
       i < j) ∧
    (∀ i j (hi : i < (get_all_files enum).length)
       (hj : j < (get_all_files enum).length), i < j →
       strLt (toLowerCl (relStr ((get_all_files enum).get ⟨j, hj⟩)))
         (toLowerCl (relStr ((get_all_files enum).get ⟨i, hi⟩))) = false) ∧
    (∀ k (hk : k < (get_all_files enum).length)
       (hk' : k < (tocFls (get_all_files enum)).length),
       (tocFls (get_all_files enum)).get ⟨k, hk'⟩ =
         Flowable.paragraph
           (escape_xml (tocEntryStr (k + 1) ((get_all_files enum).get ⟨k, hk⟩)))
           "TOC".toList) ∧
    (∀ k (hk : k < (get_all_files enum).length)
       (hk2 : k < (((get_all_files enum).map (fun p => (p, c p))).map
         (fun pc => sectionFor pc.1 pc.2)).length),
       (((get_all_files enum).map (fun p => (p, c p))).map
         (fun pc => sectionFor pc.1 pc.2))[k] =
         sectionFor ((get_all_files enum).get ⟨k, hk⟩)
           (c ((get_all_files enum).get ⟨k, hk⟩))) := by
  have hseg : ∀ {i : Nat} (hi : i < (get_all_files enum).length),
      ((get_all_files enum).get ⟨i, hi⟩).segments ≠ [] := by
    intro i hi
    have hmem : (get_all_files enum).get ⟨i, hi⟩ ∈ get_all_files enum :=
      List.get_mem _ _ _
    rcases (mem_get_all_files_iff enum _).mp hmem with ⟨b, hin, -⟩
    exact hwf _ hin
  refine ⟨?_, ?_, ?_, ?_⟩
  · intro i j hi hj hlt
    apply get_all_files_lt_position enum hi hj
    rw [pathLt_eq_relLt _ _ (hseg hi) (hseg hj)]
    exact hlt
  · intro i j hi hj hij
    have := get_all_files_sorted_get enum hi hj hij
    rwa [pathLt_eq_relLt _ _ (hseg hj) (hseg hi)] at this
  · intro k hk hk'
    exact tocFls_get _ k hk hk'
  · intro k hk hk2
    rw [List.getElem_map, List.getElem_map]
    rfl

theorem canonical_order_amended_witness :
    strLt (toLowerCl (relStr ((get_all_files wEnum).get ⟨0, by decide⟩)))
      (toLowerCl (relStr ((get_all_files wEnum).get ⟨1, by decide⟩))) = true ∧
    (0 : Nat) < 1 := by
  have h := canonical_order_amended wEnum (fun _ => []) (by decide)
  exact ⟨by decide, h.1 0 1 (by decide) (by decide) (by decide)⟩

/-! ## Error propagation -/

/-- C6: errors other than decoding errors are never retried or absorbed —
an enumeration failure, the first failing file read (in canonical order),
or a write failure each aborts the run with exactly that error, and a
successful run implies every selected file was read successfully and the
write succeeded, with one content section per selected file (no
partial-success mode). -/
theorem errors_propagate {ε : Type} (enumE : Except ε (List (PyPath × Bool)))
    (readBytes : PyPath → Except ε (List Nat)) (writeRes : Except ε Unit) :
    (∀ e, enumE = Except.error e →
       mainE enumE readBytes writeRes = Except.error e) ∧
    (∀ enum, enumE = Except.ok enum →
       ∀ k e (hk : k < (get_all_files enum).length),
         readBytes ((get_all_files enum).get ⟨k, hk⟩) = Except.error e →
         (∀ j (hj : j < (get_all_files enum).length), j < k →
            ∃ b, readBytes ((get_all_files enum).get ⟨j, hj⟩) = Except.ok b) →
         mainE enumE readBytes writeRes = Except.error e) ∧
    (∀ enum e, enumE = Except.ok enum →
       (∀ p ∈ get_all_files enum, ∃ b, readBytes p = Except.ok b) →
       writeRes = Except.error e →
       mainE enumE readBytes writeRes = Except.error e) ∧
    (∀ out, mainE enumE readBytes writeRes = Except.ok out →
       ∃ enum, enumE = Except.ok enum ∧ writeRes = Except.ok () ∧
         (∀ p ∈ get_all_files enum, ∃ b, readBytes p = Except.ok b) ∧
         sectionCount out.story = (get_all_files enum).length) := by
  refine ⟨?_, ?_, ?_, ?_⟩
  · intro e he
    rw [he]
    rfl
  · intro enum henum k e hk hread hprev
    subst henum
    have herr : (fun p => (readBytes p).map read_file_safely)
        ((get_all_files enum).get ⟨k, hk⟩) = Except.error e := by
      simp only [hread]
      rfl
    have hprev' : ∀ j (hj : j < (get_all_files enum).length), j < k →
        ∃ b, (fun p => (readBytes p).map read_file_safely)
          ((get_all_files enum).get ⟨j, hj⟩) = Except.ok b := by
      intro j hj hjk
      rcases hprev j hj hjk with ⟨b, hb⟩
      refine ⟨read_file_safely b, ?_⟩
      simp only [hb]
      rfl
    have hm := mapE_error_first
      (fun p => (readBytes p).map read_file_safely) hk herr hprev'
    simp only [mainE, hm]
  · intro enum e henum hall hw
    subst henum
    have hforall : ∀ p ∈ get_all_files enum,
        ∃ b, (fun q => (readBytes q).map read_file_safely) p = Except.ok b := by
      intro p hp
      rcases hall p hp with ⟨b, hb⟩
      refine ⟨read_file_safely b, ?_⟩
      simp only [hb]
      rfl
    rcases mapE_ok_of_forall hforall with ⟨bs, hbs⟩
    simp only [mainE, hbs, hw]
  · intro out hout
    cases henum : enumE with
    | error e =>
      rw [henum] at hout
      exact absurd hout (by simp [mainE])
    | ok enum =>
      rw [henum] at hout
      refine ⟨enum, rfl, ?_⟩
      cases hm : mapE (fun p => (readBytes p).map read_file_safely)
          (get_all_files enum) with
      | error e =>
        rw [show mainE (Except.ok enum) readBytes writeRes =
            Except.error e from by simp only [mainE, hm]] at hout
        exact absurd hout (by simp)
      | ok texts =>
        cases hw : writeRes with
        | error e =>
          rw [show mainE (Except.ok enum) readBytes writeRes =
              Except.error e from by simp only [mainE, hm, hw]] at hout
          exact absurd hout (by simp)
        | ok u =>
          cases u
          have hout' : out = runOutputOf (get_all_files enum)
              ((get_all_files enum).zip texts) := by
            have := hout
            simp only [mainE, hm, hw] at this
            exact (Except.ok.injEq _ _).mp this |>.symm
          refine ⟨rfl, ?_, ?_⟩
          · intro p hp
            rcases mapE_ok_forall hm p hp with ⟨t, ht⟩
            cases hb : readBytes p with
            | error e =>
              rw [hb] at ht
              exact absurd ht (by simp [Except.map])
            | ok b => exact ⟨b, rfl⟩
          · rw [hout']
            show sectionCount (storyOf (get_all_files enum)
              ((get_all_files enum).zip texts)) = _
            rw [sectionCount_storyOf, List.length_zip, mapE_ok_length hm,
              Nat.min_self]

theorem errors_propagate_witness :
    mainE (Except.ok wEnum)
      (fun _ => (Except.error "boom" : Except String (List Nat)))
      (Except.ok ()) = Except.error "boom" := by
  have h := errors_propagate (Except.ok wEnum)
    (fun _ => (Except.error "boom" : Except String (List Nat))) (Except.ok ())
  refine h.2.1 wEnum rfl 0 "boom" (by decide) rfl ?_
  intro j hj hj0
  exact absurd hj0 (Nat.not_lt_zero j)

end RepoToPdf
